import Mathlib

/-!
# Verification of the in-place iterative radix-2 FFT of `src/fft.h`

This file embeds the function `FFT(std::vector<std::complex<long double>> &P,
int inv = 1)` of `src/fft.h` into Lean and settles the specification claims
about it.

Modelling decisions:

* Complex samples are ideal complex numbers (`ℂ`); `long double` round-off is
  outside the embedding, so "within floating-point tolerance" claims are read
  in exact arithmetic.
* The static vector `roots` is threaded explicitly as a value of `RootsVec`:
  `size` is the vector's `size()` and `data` is the contents of its backing
  buffer.  This distinction matters because the source calls
  `roots.clear(); roots.reserve(P.size());` and then assigns through
  `roots[i]`: `reserve` does not change `size()`, and `operator[]` writes into
  the buffer without changing `size()`, so after a rebuild `size` is `0`
  while the buffer holds the `N/2` written values (which is what the
  butterfly reads `roots[layer * k]` observe).
* The three loop nests are embedded one to one: the bit-reversal `for` loop
  as a fold over `i = 1, …, N-1` carrying the persistent `j`; the inner
  `while (j >= b)` as the recursion `foldJ`; the stage `for (i = 2; i <= N;
  i <<= 1)` and block `for (j = 0; j < N; j += i)` loops as guarded
  recursions; the butterfly `for (k = 0; k < i/2; ++k)` as a fold over
  `List.range (i/2)`.
* The arithmetic core `FFTcore` is parametric in the scalar field and in the
  function `mk` producing the table entry for index `k`; the instantiation
  `FFT` at `ℂ` fixes `mk k = (cos (θ·k), sin (θ·k))` with
  `θ = inv · 2π / N`, exactly line 23 and line 29 of the source.
-/

/-- The cached `static std::vector<std::complex<long double>> roots` of
`src/fft.h` line 13, modelled as its `size()` together with the contents of
its backing buffer (see the file comment: `operator[]` writes after
`clear(); reserve()` land in the buffer without changing `size()`). -/
structure RootsVec (K : Type) where
  size : ℕ
  data : List K
  deriving Repr, DecidableEq

/-- The state of the static `roots` vector at program start: empty. -/
def emptyRoots (K : Type) : RootsVec K := ⟨0, []⟩

/-- The inner `while (j >= b) { j -= b; b >>= 1; }` of lines 16–19.  The
`b = 0` guard makes the recursion total; it is unreachable from `FFT`
(there `j = 0 < b` throughout, see `bitrevPass_eq_self`), and at `b = 0`
the C loop would not terminate, so no terminating C execution is
misrepresented. -/
def foldJ (j b : ℕ) : ℕ :=
  if b = 0 then j
  else if b ≤ j then foldJ (j - b) (b / 2)
  else j
termination_by b
decreasing_by exact Nat.div_lt_self (Nat.pos_of_ne_zero (by assumption)) one_lt_two

/-- Swap of two list entries, the effect of `std::swap(P[i], P[j])` on the
vector (both indices are in bounds whenever the source executes it). -/
def listSwap {K : Type} [Zero K] (P : List K) (a b : ℕ) : List K :=
  (P.set a (P.getD b 0)).set b (P.getD a 0)

/-- One iteration of the bit-reversal loop body, lines 15–20: recompute `j`
through the shrinking-mask walk starting from `b = N >> 1`, then swap
`P[i]` and `P[j]` when `i < j`.  The state is the pair `(j, P)`; `j`
persists across iterations exactly as the `size_t j` declared in the
`for` head does. -/
def bitrevStep {K : Type} [Zero K] (N : ℕ) (s : ℕ × List K) (i : ℕ) : ℕ × List K :=
  let j := foldJ s.1 (N / 2)
  (j, if i < j then listSwap s.2 i j else s.2)

/-- The bit-reversal phase, lines 14–21: fold the loop body over
`i = 1, …, N-1` with initial state `j = 0`. -/
def bitrevPass {K : Type} [Zero K] (P : List K) : List K :=
  ((List.range' 1 (P.length - 1)).foldl (bitrevStep P.length) (0, P)).2

/-- The butterfly loop `for (k = 0; k < i/2; ++k)` of lines 35–40, at stage
width `i` (here `half = i / 2`), block start `j`, twiddle stride `layer`:
read `u = P[j+k]` and `v = P[j+k+half] * roots[layer*k]`, write back
`u + v` and `u - v`. -/
def kLoop {K : Type} [Field K] (roots : List K) (layer j half : ℕ)
    (Q : List K) : List K :=
  (List.range half).foldl (fun R k =>
    let u := R.getD (j + k) 0
    let v := R.getD (j + k + half) 0 * roots.getD (layer * k) 0
    (R.set (j + k) (u + v)).set (j + k + half) (u - v)) Q

/-- The block loop `for (j = 0; j < P.size(); j += i)` of line 34, stepping
`j` by `step = i` while `j < N`.  The `0 < step` conjunct records the
loop-variable invariant (`i ≥ 2` at every entry from `FFT`) that makes the
recursion terminate; at `step = 0` the C loop would not terminate. -/
def jLoop {K : Type} [Field K] (roots : List K) (N layer half step j : ℕ)
    (Q : List K) : List K :=
  if h : j < N ∧ 0 < step then
    jLoop roots N layer half step (j + step) (kLoop roots layer j half Q)
  else Q
termination_by N - j
decreasing_by omega

/-- The stage loop `for (i = 2; i <= P.size(); i <<= 1)` of lines 32–42,
with `layer = P.size() / i` (line 33).  The `2 ≤ i` conjunct records the
loop-variable invariant (`i` starts at `2` and doubles) that makes the
recursion terminate. -/
def stageLoop {K : Type} [Field K] (roots : List K) (N i : ℕ)
    (Q : List K) : List K :=
  if h : i ≤ N ∧ 2 ≤ i then
    stageLoop roots N (2 * i) (jLoop roots N (N / i) (i / 2) i 0 Q)
  else Q
termination_by N + 1 - i
decreasing_by omega

/-- The body of `FFT` (lines 12–49), parametric in the scalar field `K` and
in the table-entry function `mk` (the complex exponential of line 29):

1. bit-reversal pass (lines 14–21);
2. table rebuild when `roots.size() != P.size() / 2` (lines 25–30):
   `clear()` sets `size` to `0`, `reserve` leaves it, and the `N/2` writes
   `roots[i] = …` fill the buffer without changing `size`, so the new state
   is `⟨0, written values⟩`;
3. butterfly stages starting at width `i = 2` (lines 32–42), reading
   twiddles from the buffer;
4. the `inv == -1` normalisation `a /= P.size()` (lines 44–48). -/
def FFTcore {K : Type} [Field K] (mk : ℕ → K) (rv : RootsVec K)
    (P : List K) (inv : ℤ) : RootsVec K × List K :=
  let N := P.length
  let P1 := bitrevPass P
  let rv1 := if rv.size ≠ N / 2 then ⟨0, (List.range (N / 2)).map mk⟩ else rv
  let P2 := stageLoop rv1.data N 2 P1
  let P3 := if inv = -1 then P2.map (fun a => a / (N : K)) else P2
  (rv1, P3)

/-- `long double theta = inv * 2 * PI / P.size();`, line 23. -/
noncomputable def theta (N : ℕ) (inv : ℤ) : ℝ :=
  (inv : ℝ) * 2 * Real.pi / (N : ℝ)

/-- The table entry written at index `k` on line 29:
`std::complex<long double>(cos(theta * k), sin(theta * k))`. -/
noncomputable def rootVal (N : ℕ) (inv : ℤ) (k : ℕ) : ℂ :=
  ⟨Real.cos (theta N inv * k), Real.sin (theta N inv * k)⟩

/-- `FFT(P, inv)` of `src/fft.h` over ideal complex numbers, threading the
static `roots` vector explicitly: returns the vector's state after the call
together with the transformed sequence. -/
noncomputable def FFT (rv : RootsVec ℂ) (P : List ℂ) (inv : ℤ) :
    RootsVec ℂ × List ℂ :=
  FFTcore (rootVal P.length inv) rv P inv

/-! ## The butterfly phase as the specification words it (§4.1, step 3)

`butterfliesSpec` is written from the spec sentence, not from the source:
"for stage width `len` doubling from 2 up to N (powers of two), and
`layer = N / len`: for each block start `j` stepping by `len` across
`[0, N)`, and each local offset `k` in `[0, len/2)`: let `u = sequence[j+k]`,
`v = sequence[j+k+len/2] · root[layer·k]`; write `sequence[j+k] = u + v` and
`sequence[j+k+len/2] = u − v`", with stages in strictly increasing width
order.  For `N = 2^n` the widths are `2^(t+1)` for `t = 0, …, n-1` and the
block starts are `b · len` for `b < N / len`. -/

def butterfliesSpec {K : Type} [Field K] (roots : List K) (N n : ℕ)
    (P : List K) : List K :=
  (List.range n).foldl (fun Q t =>
    let len := 2 ^ (t + 1)
    let layer := N / len
    (List.range (N / len)).foldl (fun Q' b =>
      let j := b * len
      (List.range (len / 2)).foldl (fun R k =>
        let u := R.getD (j + k) 0
        let v := R.getD (j + k + len / 2) 0 * roots.getD (layer * k) 0
        (R.set (j + k) (u + v)).set (j + k + len / 2) (u - v)) Q') Q) P

/-! ## A bounds-observing run of the same code

The `…C` functions below are the same loops with every sequence access
through a checked read/write that fails (`none`) on an out-of-range index,
and with the twiddle read guarded by the bound `layer * k < N / 2` of claim
C9.  Proving that the checked run returns `some` of the unchecked run is the
in-bounds statement for every access the code makes. -/

/-- Checked write: `some (P.set i x)` when `i` is in range, else `none`. -/
def writeC {K : Type} (P : List K) (i : ℕ) (x : K) : Option (List K) :=
  if i < P.length then some (P.set i x) else none

/-- Checked `std::swap(P[a], P[b])`. -/
def swapC {K : Type} (P : List K) (a b : ℕ) : Option (List K) := do
  let x ← P.get? a
  let y ← P.get? b
  writeC (← writeC P a y) b x

/-- Checked form of `bitrevStep`. -/
def bitrevStepC {K : Type} (N : ℕ) (s : Option (ℕ × List K)) (i : ℕ) :
    Option (ℕ × List K) := do
  let s0 ← s
  let j := foldJ s0.1 (N / 2)
  if i < j then
    let Q ← swapC s0.2 i j
    pure (j, Q)
  else pure (j, s0.2)

/-- Checked form of `bitrevPass`. -/
def bitrevPassC {K : Type} (P : List K) : Option (List K) :=
  ((List.range' 1 (P.length - 1)).foldl (bitrevStepC P.length)
      (some (0, P))).map Prod.snd

/-- One checked butterfly: the body of `kLoop` with both sequence reads and
both sequence writes range-checked, and the twiddle index checked against
`rbound` (instantiated with the claimed bound `N / 2`). -/
def kStepC {K : Type} [Field K] (roots : List K) (rbound layer j half : ℕ)
    (R : Option (List K)) (k : ℕ) : Option (List K) := do
  let q ← R
  let u ← q.get? (j + k)
  let w ← q.get? (j + k + half)
  if layer * k < rbound then
    let v := w * roots.getD (layer * k) 0
    let q1 ← writeC q (j + k) (u + v)
    writeC q1 (j + k + half) (u - v)
  else none

/-- Checked form of `kLoop`. -/
def kLoopC {K : Type} [Field K] (roots : List K) (rbound layer j half : ℕ)
    (Q : List K) : Option (List K) :=
  (List.range half).foldl (kStepC roots rbound layer j half) (some Q)

/-- Checked form of `jLoop`. -/
def jLoopC {K : Type} [Field K] (roots : List K)
    (N rbound layer half step j : ℕ) (Q : Option (List K)) : Option (List K) :=
  if h : j < N ∧ 0 < step then
    jLoopC roots N rbound layer half step (j + step)
      (Q.bind (kLoopC roots rbound layer j half))
  else Q
termination_by N - j
decreasing_by omega

/-- Checked form of `stageLoop`. -/
def stageLoopC {K : Type} [Field K] (roots : List K) (N rbound i : ℕ)
    (Q : Option (List K)) : Option (List K) :=
  if h : i ≤ N ∧ 2 ≤ i then
    stageLoopC roots N rbound (2 * i)
      (jLoopC roots N rbound (N / i) (i / 2) i 0 Q)
  else Q
termination_by N + 1 - i
decreasing_by omega

/-- Checked form of `FFTcore`: every sequence access of the bit-reversal
pass and of the butterfly loops is range-checked, and every twiddle read is
checked against the bound `N / 2`. -/
def FFTcoreC {K : Type} [Field K] (mk : ℕ → K) (rv : RootsVec K)
    (P : List K) (inv : ℤ) : Option (RootsVec K × List K) := do
  let N := P.length
  let P1 ← bitrevPassC P
  let rv1 : RootsVec K :=
    if rv.size ≠ N / 2 then ⟨0, (List.range (N / 2)).map mk⟩ else rv
  let P2 ← stageLoopC rv1.data N (N / 2) 2 (some P1)
  let P3 := if inv = -1 then P2.map (fun a => a / (N : K)) else P2
  pure (rv1, P3)

/-! ## The hardened call boundary of §4.1 / §7 -/

/-- Modelled from the spec: the single error kind of §7, `InvalidLength`,
"raised when the sequence length is not a power of two (including zero)".
No such error type exists in `src/fft.h`; §4.1 calls the validation "a
deliberate hardening over the source". -/
inductive FFTError where
  | InvalidLength
  deriving Repr, DecidableEq

/-- `n` is an exact power of two.  A power of two `n = 2^k` always has
`k ≤ n`, so the bounded search is exact (and decidable). -/
def isPow2 (n : ℕ) : Bool :=
  (List.range (n + 1)).any (fun k => n == 2 ^ k)

/-- Modelled from the spec: the hardened `transform(sequence, direction)`
contract of §4.1/§7, absent from `src/fft.h` — "fail fast at the call
boundary before mutating any input (validate length before permuting) so
that a rejected call leaves the input sequence untouched."  On a valid
length it runs the engine `FFT`; on an invalid one it raises
`InvalidLength` without touching the sequence. -/
noncomputable def transform (rv : RootsVec ℂ) (P : List ℂ) (inv : ℤ) :
    Except FFTError (RootsVec ℂ × List ℂ) :=
  if isPow2 P.length then .ok (FFT rv P inv) else .error .InvalidLength

/-! ## Basic facts about the bit-reversal phase

The source omits the `j += b` ("set the mask's bit") step of the classic
incremental bit-reversal walk, so `j`, once `0`, stays `0` forever and the
guard `i < j` never fires: the phase moves nothing. -/

theorem foldJ_zero (b : ℕ) : foldJ 0 b = 0 := by
  rw [foldJ]
  split
  · rfl
  · split
    · omega
    · rfl

theorem bitrevStep_zero {K : Type} [Zero K] (N : ℕ) (P : List K) (i : ℕ) :
    bitrevStep N (0, P) i = (0, P) := by
  simp [bitrevStep, foldJ_zero]

theorem bitrev_fold_fixed {K : Type} [Zero K] (N : ℕ) (L : List ℕ) (P : List K) :
    L.foldl (bitrevStep N) (0, P) = (0, P) := by
  induction L with
  | nil => rfl
  | cons i L ih => rw [List.foldl_cons, bitrevStep_zero, ih]

/-- Lines 14–21 never move an element: the source omits the `j += b` step
("set the mask's bit") of the classic walk, so `j` stays `0` and the swap
guard `i < j` never holds. -/
theorem bitrevPass_eq_self {K : Type} [Zero K] (P : List K) :
    bitrevPass P = P := by
  unfold bitrevPass
  rw [bitrev_fold_fixed]

theorem kLoop_length {K : Type} [Field K] (roots : List K)
    (layer j half : ℕ) (Q : List K) :
    (kLoop roots layer j half Q).length = Q.length := by
  unfold kLoop
  generalize List.range half = L
  induction L generalizing Q with
  | nil => rfl
  | cons a L ih =>
    rw [List.foldl_cons]
    rw [ih]
    simp [List.length_set]

theorem jLoop_length_aux {K : Type} [Field K] (roots : List K)
    (N layer half step : ℕ) :
    ∀ d j Q, N - j ≤ d →
      (jLoop roots N layer half step j Q).length = Q.length := by
  intro d
  induction d with
  | zero =>
    intro j Q h
    rw [jLoop]
    split
    · omega
    · rfl
  | succ d ih =>
    intro j Q h
    rw [jLoop]
    split
    · rename_i hg
      rw [ih (j + step) _ (by omega)]
      exact kLoop_length ..
    · rfl

theorem jLoop_length {K : Type} [Field K] (roots : List K)
    (N layer half step j : ℕ) (Q : List K) :
    (jLoop roots N layer half step j Q).length = Q.length :=
  jLoop_length_aux roots N layer half step (N - j) j Q le_rfl

theorem stageLoop_length_aux {K : Type} [Field K] (roots : List K) (N : ℕ) :
    ∀ d i Q, N + 1 - i ≤ d →
      (stageLoop roots N i Q).length = Q.length := by
  intro d
  induction d with
  | zero =>
    intro i Q h
    rw [stageLoop]
    split
    · omega
    · rfl
  | succ d ih =>
    intro i Q h
    rw [stageLoop]
    split
    · rename_i hg
      rw [ih (2 * i) _ (by omega)]
      exact jLoop_length ..
    · rfl

theorem stageLoop_length {K : Type} [Field K] (roots : List K)
    (N i : ℕ) (Q : List K) :
    (stageLoop roots N i Q).length = Q.length :=
  stageLoop_length_aux roots N (N + 1 - i) i Q le_rfl

theorem bitrevPass_length {K : Type} [Zero K] (P : List K) :
    (bitrevPass P).length = P.length := by
  rw [bitrevPass_eq_self]

/-! ## Evaluating the twiddle values at `N = 4` -/

theorem theta_four (inv : ℤ) : theta 4 inv = (inv : ℝ) * Real.pi / 2 := by
  unfold theta
  push_cast
  ring

theorem rootVal_four_zero (inv : ℤ) : rootVal 4 inv 0 = 1 := by
  have h : theta 4 inv * ((0 : ℕ) : ℝ) = 0 := by push_cast; ring
  unfold rootVal
  rw [h]
  simp [Complex.ext_iff]

theorem rootVal_four_one_one : rootVal 4 1 1 = Complex.I := by
  have h : theta 4 1 * ((1 : ℕ) : ℝ) = Real.pi / 2 := by
    rw [theta_four]; push_cast; ring
  unfold rootVal
  rw [h]
  simp [Complex.ext_iff]

theorem rootVal_four_neg_one : rootVal 4 (-1) 1 = -Complex.I := by
  have h : theta 4 (-1) * ((1 : ℕ) : ℝ) = -(Real.pi / 2) := by
    rw [theta_four]; push_cast; ring
  unfold rootVal
  rw [h]
  simp [Complex.ext_iff]

/-! ## Closed-form runs of `FFT` at length 4

With the bit-reversal pass a no-op (`bitrevPass_eq_self`) and the cache
always rebuilding (its `size` is `0` after every call), a length-4 call is
two butterfly stages over the per-direction table, then the `inv == -1`
scaling. -/

theorem FFT_four_fwd_eval (a b c d : ℂ) :
    FFT (emptyRoots ℂ) [a, b, c, d] 1 =
      (⟨0, [1, Complex.I]⟩,
        [a + b + c + d,
         a - b + (c - d) * Complex.I,
         a + b - (c + d),
         a - b - (c - d) * Complex.I]) := by
  unfold FFT FFTcore
  rw [bitrevPass_eq_self]
  norm_num [emptyRoots, List.range_succ, rootVal_four_zero, rootVal_four_one_one]
  simp [stageLoop, jLoop, kLoop, List.range_succ]
  ring_nf

theorem FFT_four_inv_eval (a b c d : ℂ) (rv : RootsVec ℂ) (hrv : rv.size = 0) :
    FFT rv [a, b, c, d] (-1) =
      (⟨0, [1, -Complex.I]⟩,
        [(a + b + c + d) / 4,
         (a - b - (c - d) * Complex.I) / 4,
         (a + b - (c + d)) / 4,
         (a - b + (c - d) * Complex.I) / 4]) := by
  unfold FFT FFTcore
  rw [bitrevPass_eq_self]
  norm_num [hrv, List.range_succ, rootVal_four_zero, rootVal_four_neg_one]
  simp [stageLoop, jLoop, kLoop, List.range_succ]
  ring_nf
  norm_num

theorem stageLoop_of_lt {K : Type} [Field K] (roots : List K) {N i : ℕ}
    (h : N < i) (Q : List K) : stageLoop roots N i Q = Q := by
  rw [stageLoop, dif_neg]
  omega

theorem stageLoop_one {K : Type} [Field K] (roots : List K) (Q : List K) :
    stageLoop roots 1 2 Q = Q :=
  stageLoop_of_lt roots (by norm_num) Q

/-- Claim C2: the claim says the bit-reversal phase moves the element at
index `i` to the bit-reversed index (for `N = 4`, `[10, 11, 12, 13]` would
have to become `[10, 12, 11, 13]`).  The code's phase moves nothing — the
`j += b` step of the walk is missing from lines 16–19 — so the sequence
comes out unchanged, which differs from the claimed ordering. -/
theorem claim_C2 :
    bitrevPass ([10, 11, 12, 13] : List ℚ) = [10, 11, 12, 13] ∧
    ([10, 11, 12, 13] : List ℚ) ≠ [10, 12, 11, 13] := by
  refine ⟨bitrevPass_eq_self _, ?_⟩
  intro h
  simp at h

/-- Claim C10: a length-1 call leaves the sequence unchanged for every
direction and every prior cache state: no bit-reversal swap and no
butterfly stage executes, and the inverse normalisation divides by 1. -/
theorem claim_C10 (rv : RootsVec ℂ) (x : ℂ) (inv : ℤ) :
    (FFT rv [x] inv).2 = [x] := by
  unfold FFT FFTcore
  rw [bitrevPass_eq_self]
  simp only [List.length_singleton]
  rw [stageLoop_one]
  split
  · simp
  · rfl

theorem FFTcore_fst {K : Type} [Field K] (mk : ℕ → K) (rv : RootsVec K)
    (P : List K) (inv : ℤ) :
    (FFTcore mk rv P inv).1 =
      if rv.size ≠ P.length / 2 then
        ⟨0, (List.range (P.length / 2)).map mk⟩
      else rv := rfl

theorem FFTcore_snd {K : Type} [Field K] (mk : ℕ → K) (rv : RootsVec K)
    (P : List K) (inv : ℤ) :
    (FFTcore mk rv P inv).2 =
      if inv = -1 then
        (stageLoop (FFTcore mk rv P inv).1.data P.length 2 (bitrevPass P)).map
          (fun a => a / (P.length : K))
      else
        stageLoop (FFTcore mk rv P inv).1.data P.length 2 (bitrevPass P) := by
  rw [FFTcore_fst]
  rfl

/-- Claim C6: after the butterfly stages complete, every element of the
output is the corresponding element of the stage output divided by `N`
exactly when the direction is inverse (`inv = -1`), and unchanged for any
other direction value. -/
theorem claim_C6 {K : Type} [Field K] (mk : ℕ → K) (rv : RootsVec K)
    (P : List K) (inv : ℤ) (m : ℕ) (hm : m < P.length) :
    (FFTcore mk rv P inv).2.getD m 0 =
      if inv = -1 then
        (stageLoop (FFTcore mk rv P inv).1.data P.length 2 (bitrevPass P)).getD m 0
          / (P.length : K)
      else
        (stageLoop (FFTcore mk rv P inv).1.data P.length 2 (bitrevPass P)).getD m 0 := by
  rw [FFTcore_snd]
  set Q := stageLoop (FFTcore mk rv P inv).1.data P.length 2 (bitrevPass P) with hQ
  have hlen : Q.length = P.length := by
    rw [hQ, stageLoop_length, bitrevPass_length]
  split
  · rw [List.getD_eq_getElem _ _ (by rw [List.length_map, hlen]; exact hm)]
    rw [List.getElem_map]
    rw [List.getD_eq_getElem _ _ (by rw [hlen]; exact hm)]
  · rfl

/-- Witness for claim C6 at `K = ℚ`, `P = [3, 5]`, `inv = -1`, `m = 0`. -/
theorem claim_C6_witness :
    0 < ([3, 5] : List ℚ).length ∧
    (FFTcore Nat.cast (emptyRoots ℚ) [3, 5] (-1)).2.getD 0 0 =
      (if (-1 : ℤ) = -1 then
        (stageLoop (FFTcore Nat.cast (emptyRoots ℚ) [3, 5] (-1)).1.data
            ([3, 5] : List ℚ).length 2 (bitrevPass [3, 5])).getD 0 0
          / (([3, 5] : List ℚ).length : ℚ)
      else
        (stageLoop (FFTcore Nat.cast (emptyRoots ℚ) [3, 5] (-1)).1.data
            ([3, 5] : List ℚ).length 2 (bitrevPass [3, 5])).getD 0 0) :=
  ⟨by norm_num, claim_C6 Nat.cast (emptyRoots ℚ) [3, 5] (-1) 0 (by norm_num)⟩

/-- Claim C7: the forward transform of the constant sequence `[c, c, c, c]`
is `[4c, 0, 0, 0]` and of the impulse `[1, 0, 0, 0]` is `[1, 1, 1, 1]`
(exactly, in ideal arithmetic).  Both inputs are fixed points of any
index permutation that fixes index 0, so the broken bit-reversal pass does
not disturb these two transform pairs. -/
theorem claim_C7 (c : ℂ) :
    (FFT (emptyRoots ℂ) [c, c, c, c] 1).2 = [4 * c, 0, 0, 0] ∧
    (FFT (emptyRoots ℂ) [1, 0, 0, 0] 1).2 = [1, 1, 1, 1] := by
  rw [FFT_four_fwd_eval, FFT_four_fwd_eval]
  constructor
  · show [c + c + c + c, c - c + (c - c) * Complex.I, c + c - (c + c),
      c - c - (c - c) * Complex.I] = _
    ring_nf
  · show [1 + 0 + 0 + 0, 1 - 0 + (0 - 0) * Complex.I, 1 + 0 - (0 + 0),
      (1 : ℂ) - 0 - (0 - 0) * Complex.I] = _
    norm_num

/-- Claim C1: the forward-then-inverse round trip does not reconstruct the
input.  Starting from the pristine cache, transforming `[1, 2, 3, 4]`
forward and then inverse yields `[1, 5/2 + i, 7/2 - i/2, 3 - i/2]`, not
`[1, 2, 3, 4]` — the missing bit-reversal swap makes each call compute a
DFT of the bit-reversed sequence, and the two permutations do not cancel.
The computation is exact, so no floating-point tolerance can absorb the
difference. -/
theorem claim_C1 :
    (FFT (FFT (emptyRoots ℂ) [1, 2, 3, 4] 1).1
         (FFT (emptyRoots ℂ) [1, 2, 3, 4] 1).2 (-1)).2 =
      [1, 5 / 2 + Complex.I, 7 / 2 - Complex.I / 2, 3 - Complex.I / 2] ∧
    ([1, 5 / 2 + Complex.I, 7 / 2 - Complex.I / 2, 3 - Complex.I / 2] : List ℂ) ≠
      [1, 2, 3, 4] := by
  constructor
  · rw [FFT_four_fwd_eval]
    rw [FFT_four_inv_eval _ _ _ _ _ rfl]
    norm_num [Complex.ext_iff]
  · intro h
    simp [Complex.ext_iff] at h

/-- Claim C3: the cached table is not left unchanged by a call with the same
`N` as the previous call.  A forward call at `N = 4` leaves the vector with
`size = 0` and buffer `[1, i]`; the following inverse call at the same
`N = 4` finds `size (= 0) ≠ N/2 (= 2)` and rebuilds, observably changing the
buffer to `[1, -i]`.  (`clear(); reserve()` plus `operator[]` writes never
make `size()` equal `N/2`, so the rebuild fires on every call with
`N ≥ 2`, not exactly on the calls whose `N` differs.) -/
theorem claim_C3 :
    (FFT (emptyRoots ℂ) [1, 2, 3, 4] 1).1 = ⟨0, [1, Complex.I]⟩ ∧
    (FFT ⟨0, [1, Complex.I]⟩ [1, 2, 3, 4] (-1)).1 = ⟨0, [1, -Complex.I]⟩ ∧
    (⟨0, [1, -Complex.I]⟩ : RootsVec ℂ) ≠ ⟨0, [1, Complex.I]⟩ := by
  refine ⟨by rw [FFT_four_fwd_eval], by rw [FFT_four_inv_eval _ _ _ _ _ rfl], ?_⟩
  intro h
  simp [Complex.ext_iff] at h
  norm_num at h

/-- Claim C4: after the rebuild triggered by a forward call at `N = 4` the
table's buffer does hold the specified values `root[k] = (cos θk, sin θk)`
(that is, `[1, i]`), but the vector's length is `0`, not `N/2 = 2`: the
rebuild reserves instead of resizing, so the `size()` the cache check reads
never becomes `N/2`. -/
theorem claim_C4 :
    (FFT (emptyRoots ℂ) [1, 2, 3, 4] 1).1.size = 0 ∧
    (FFT (emptyRoots ℂ) [1, 2, 3, 4] 1).1.size ≠ ([1, 2, 3, 4] : List ℂ).length / 2 ∧
    (FFT (emptyRoots ℂ) [1, 2, 3, 4] 1).1.data = [rootVal 4 1 0, rootVal 4 1 1] := by
  rw [FFT_four_fwd_eval]
  refine ⟨rfl, by norm_num, ?_⟩
  rw [rootVal_four_zero, rootVal_four_one_one]

/-! ## The butterfly phase matches the specification's loop nest (claim C5) -/

theorem jLoop_blocks {K : Type} [Field K] (roots : List K)
    (N layer half step : ℕ) :
    ∀ m b Q, N = step * (b + m) → 0 < step →
      jLoop roots N layer half step (b * step) Q =
        (List.range' b m).foldl
          (fun Q' x => kLoop roots layer (x * step) half Q') Q := by
  intro m
  induction m with
  | zero =>
    intro b Q hN hstep
    have hb : b * step = N := by rw [hN]; ring
    rw [jLoop, dif_neg]
    · rfl
    · rw [hb]; simp
  | succ m ih =>
    intro b Q hN hstep
    have hlt : b * step < N := by
      rw [hN]
      calc b * step = step * b := by ring
        _ < step * (b + (m + 1)) := mul_lt_mul_of_pos_left (by omega) hstep
    rw [jLoop, dif_pos ⟨hlt, hstep⟩]
    have hstep2 : b * step + step = (b + 1) * step := by ring
    rw [hstep2, ih (b + 1) _ (by rw [hN]; ring) hstep]
    rw [List.range'_succ, List.foldl_cons]

theorem stageLoop_pow {K : Type} [Field K] (roots : List K) (n : ℕ) :
    ∀ d s Q, n = s + d →
      stageLoop roots (2 ^ n) (2 ^ (s + 1)) Q =
        (List.range' s d).foldl
          (fun Q' t => jLoop roots (2 ^ n) (2 ^ n / 2 ^ (t + 1))
            (2 ^ (t + 1) / 2) (2 ^ (t + 1)) 0 Q') Q := by
  intro d
  induction d with
  | zero =>
    intro s Q h
    rw [stageLoop, dif_neg]
    · rfl
    · rintro ⟨h1, h2⟩
      have : (2 : ℕ) ^ n < 2 ^ (s + 1) :=
        Nat.pow_lt_pow_right one_lt_two (by omega)
      omega
  | succ d ih =>
    intro s Q h
    rw [stageLoop, dif_pos]
    · have h2 : 2 * 2 ^ (s + 1) = 2 ^ (s + 1 + 1) := by ring
      rw [h2, ih (s + 1) _ (by omega)]
      rw [List.range'_succ, List.foldl_cons]
    · refine ⟨Nat.pow_le_pow_right (by norm_num) (by omega), ?_⟩
      calc (2 : ℕ) = 2 ^ 1 := rfl
        _ ≤ 2 ^ (s + 1) := Nat.pow_le_pow_right (by norm_num) (by omega)

/-- Claim C5: for every power-of-two length `N = 2^n`, the code's butterfly
phase (`stageLoop` starting at width 2) computes exactly the loop nest the
specification describes (`butterfliesSpec`): widths `2, 4, …, N` in strictly
increasing order, each stage with `layer = N / len`, blocks stepping by
`len` across `[0, N)`, offsets `k < len/2`, and the `u + v` / `u − v`
writes with `v = sequence[j+k+len/2] · root[layer·k]`, each stage applied
to the previous stage's output. -/
theorem claim_C5 {K : Type} [Field K] (roots : List K) (N n : ℕ) (Q : List K)
    (hN : N = 2 ^ n) :
    stageLoop roots N 2 Q = butterfliesSpec roots N n Q := by
  subst hN
  show stageLoop roots (2 ^ n) (2 ^ (0 + 1)) Q = _
  rw [stageLoop_pow roots n n 0 Q (by omega)]
  unfold butterfliesSpec
  rw [← List.range_eq_range']
  apply List.foldl_ext
  intro Q' t ht
  have htn : t < n := List.mem_range.mp ht
  have hb := jLoop_blocks roots (2 ^ n) (2 ^ n / 2 ^ (t + 1)) (2 ^ (t + 1) / 2)
    (2 ^ (t + 1)) (2 ^ (n - (t + 1))) 0 Q'
    (by rw [zero_add, ← pow_add]; congr 1; omega)
    (Nat.pos_pow_of_pos _ (by norm_num))
  simp only [zero_mul] at hb
  rw [hb]
  have hcount : (2 : ℕ) ^ (n - (t + 1)) = 2 ^ n / 2 ^ (t + 1) :=
    (Nat.pow_div (by omega) (by norm_num)).symm
  rw [hcount, ← List.range_eq_range']
  rfl

/-- Witness for claim C5 at `K = ℚ`, `N = 4`, `n = 2`. -/
theorem claim_C5_witness :
    (4 : ℕ) = 2 ^ 2 ∧
    stageLoop ([5, 7] : List ℚ) 4 2 [1, 2, 3, 4] =
      butterfliesSpec [5, 7] 4 2 [1, 2, 3, 4] :=
  ⟨by norm_num, claim_C5 [5, 7] 4 2 [1, 2, 3, 4] (by norm_num)⟩

/-! ## Every access of the valid-length run is in bounds (claim C9) -/

theorem bitrevStepC_zero {K : Type} (N : ℕ) (Q : List K) (i : ℕ) :
    bitrevStepC N (some (0, Q)) i = some (0, Q) := by
  simp [bitrevStepC, foldJ_zero]

theorem bitrevC_fold_fixed {K : Type} (N : ℕ) (L : List ℕ) (P : List K) :
    L.foldl (bitrevStepC N) (some (0, P)) = some (0, P) := by
  induction L with
  | nil => rfl
  | cons i L ih => rw [List.foldl_cons, bitrevStepC_zero, ih]

theorem bitrevPassC_eq {K : Type} [Zero K] (P : List K) :
    bitrevPassC P = some (bitrevPass P) := by
  unfold bitrevPassC
  rw [bitrevC_fold_fixed, bitrevPass_eq_self]
  rfl

theorem kStepC_some {K : Type} [Field K] (roots : List K)
    (rbound layer j half : ℕ) (Q : List K) (a : ℕ)
    (h2 : j + a + half < Q.length) (h3 : layer * a < rbound) :
    kStepC roots rbound layer j half (some Q) a =
      some ((Q.set (j + a)
          (Q.getD (j + a) 0 + Q.getD (j + a + half) 0 * roots.getD (layer * a) 0)).set
        (j + a + half)
          (Q.getD (j + a) 0 - Q.getD (j + a + half) 0 * roots.getD (layer * a) 0)) := by
  have h1 : j + a < Q.length := by omega
  unfold kStepC writeC
  simp [List.get?_eq_getElem?, List.getElem?_eq_getElem, h1, h2, h3,
    List.length_set, List.getD_eq_getElem]

theorem kLoopC_fold {K : Type} [Field K] (roots : List K)
    (rbound layer j half : ℕ) :
    ∀ (L : List ℕ) (Q : List K),
      (∀ k ∈ L, j + k + half < Q.length ∧ layer * k < rbound) →
      L.foldl (kStepC roots rbound layer j half) (some Q) =
        some (L.foldl (fun R k =>
          let u := R.getD (j + k) 0
          let v := R.getD (j + k + half) 0 * roots.getD (layer * k) 0
          (R.set (j + k) (u + v)).set (j + k + half) (u - v)) Q) := by
  intro L
  induction L with
  | nil =>
    intro Q h
    rfl
  | cons a L ih =>
    intro Q h
    have h2 : j + a + half < Q.length := (h a (by simp)).1
    have h3 : layer * a < rbound := (h a (by simp)).2
    rw [List.foldl_cons, List.foldl_cons,
      kStepC_some roots rbound layer j half Q a h2 h3]
    exact ih _ (fun k hk => by
      have := h k (by simp [hk])
      simpa [List.length_set] using this)

theorem kLoopC_eq {K : Type} [Field K] (roots : List K)
    (rbound layer j half : ℕ) (Q : List K)
    (h : ∀ k, k < half → j + k + half < Q.length ∧ layer * k < rbound) :
    kLoopC roots rbound layer j half Q = some (kLoop roots layer j half Q) := by
  unfold kLoopC kLoop
  exact kLoopC_fold roots rbound layer j half (List.range half) Q
    (fun k hk => h k (List.mem_range.mp hk))

theorem jLoopC_eq {K : Type} [Field K] (roots : List K) (N half step : ℕ)
    (hhalf : 0 < half) (hstep : step = 2 * half) :
    ∀ m b Q, N = step * (b + m) → Q.length = N →
      jLoopC roots N (N / 2) (N / step) half step (b * step) (some Q) =
        some (jLoop roots N (N / step) half step (b * step) Q) := by
  intro m
  induction m with
  | zero =>
    intro b Q hN hQ
    have hb : b * step = N := by rw [hN]; ring
    rw [jLoopC, dif_neg (by rw [hb]; simp), jLoop, dif_neg (by rw [hb]; simp)]
  | succ m ih =>
    intro b Q hN hQ
    have hpos : 0 < step := by omega
    have hlt : b * step < N := by
      rw [hN]
      calc b * step = step * b := by ring
        _ < step * (b + (m + 1)) := mul_lt_mul_of_pos_left (by omega) hpos
    rw [jLoopC, dif_pos ⟨hlt, hpos⟩, jLoop, dif_pos ⟨hlt, hpos⟩]
    have hdiv : N / step = b + m + 1 := by
      rw [hN, Nat.mul_div_cancel_left _ hpos]
      omega
    have hhalfdiv : N / 2 = half * (b + m + 1) := by
      have : N = 2 * (half * (b + m + 1)) := by rw [hN, hstep]; ring
      rw [this, Nat.mul_div_cancel_left _ (by norm_num)]
    have hK : kLoopC roots (N / 2) (N / step) (b * step) half Q =
        some (kLoop roots (N / step) (b * step) half Q) := by
      apply kLoopC_eq
      intro k hk
      constructor
      · have hble : b * step + step ≤ N := by
          rw [hN]
          calc b * step + step = step * (b + 1) := by ring
            _ ≤ step * (b + (m + 1)) := Nat.mul_le_mul_left step (by omega)
        omega
      · rw [hdiv, hhalfdiv]
        calc (b + m + 1) * k < (b + m + 1) * half :=
              mul_lt_mul_of_pos_left hk (by omega)
          _ = half * (b + m + 1) := by ring
    rw [Option.some_bind, hK]
    have hb1 : b * step + step = (b + 1) * step := by ring
    rw [hb1]
    exact ih (b + 1) _ (by rw [hN]; ring) (by rw [kLoop_length]; exact hQ)

theorem stageLoopC_eq {K : Type} [Field K] (roots : List K) (n : ℕ) :
    ∀ d s Q, n = s + d → Q.length = 2 ^ n →
      stageLoopC roots (2 ^ n) (2 ^ n / 2) (2 ^ (s + 1)) (some Q) =
        some (stageLoop roots (2 ^ n) (2 ^ (s + 1)) Q) := by
  intro d
  induction d with
  | zero =>
    intro s Q h hQ
    have hgt : (2 : ℕ) ^ n < 2 ^ (s + 1) :=
      Nat.pow_lt_pow_right one_lt_two (by omega)
    rw [stageLoopC, dif_neg (by omega), stageLoop, dif_neg (by omega)]
  | succ d ih =>
    intro s Q h hQ
    have hle : (2 : ℕ) ^ (s + 1) ≤ 2 ^ n :=
      Nat.pow_le_pow_right (by norm_num) (by omega)
    have h2le : (2 : ℕ) ≤ 2 ^ (s + 1) := by
      calc (2 : ℕ) = 2 ^ 1 := rfl
        _ ≤ 2 ^ (s + 1) := Nat.pow_le_pow_right (by norm_num) (by omega)
    rw [stageLoopC, dif_pos ⟨hle, h2le⟩, stageLoop, dif_pos ⟨hle, h2le⟩]
    have hhalf : (2 : ℕ) ^ (s + 1) / 2 = 2 ^ s := by
      rw [pow_succ]
      exact Nat.mul_div_cancel _ (by norm_num)
    have hJ : jLoopC roots (2 ^ n) (2 ^ n / 2) (2 ^ n / 2 ^ (s + 1))
          (2 ^ (s + 1) / 2) (2 ^ (s + 1)) 0 (some Q) =
        some (jLoop roots (2 ^ n) (2 ^ n / 2 ^ (s + 1)) (2 ^ (s + 1) / 2)
          (2 ^ (s + 1)) 0 Q) := by
      have := jLoopC_eq roots (2 ^ n) (2 ^ (s + 1) / 2) (2 ^ (s + 1))
        (by rw [hhalf]; exact Nat.pos_pow_of_pos _ (by norm_num))
        (by rw [hhalf, pow_succ]; ring)
        (2 ^ (n - (s + 1))) 0 Q
        (by rw [zero_add, ← pow_add]; congr 1; omega) hQ
      simpa using this
    rw [hJ]
    have h2i : 2 * 2 ^ (s + 1) = 2 ^ (s + 1 + 1) := by ring
    rw [h2i]
    exact ih (s + 1) _ (by omega) (by rw [jLoop_length]; exact hQ)

/-- Claim C9: on a power-of-two-length sequence the bounds-checked run of
the whole engine succeeds and agrees with the unchecked run: every sequence
read and write of the bit-reversal pass and of the butterfly loops is at an
index in `[0, N)`, and every twiddle index `layer * k` the butterflies use
is below `N / 2`. -/
theorem claim_C9 {K : Type} [Field K] (mk : ℕ → K) (rv : RootsVec K)
    (P : List K) (inv : ℤ) (n : ℕ) (hP : P.length = 2 ^ n) :
    FFTcoreC mk rv P inv = some (FFTcore mk rv P inv) := by
  unfold FFTcoreC
  rw [bitrevPassC_eq]
  simp only [Option.bind_eq_bind, Option.some_bind]
  have hst : ∀ roots : List K,
      stageLoopC roots P.length (P.length / 2) 2 (some (bitrevPass P)) =
        some (stageLoop roots P.length 2 (bitrevPass P)) := by
    intro roots
    rw [hP]
    exact stageLoopC_eq roots n n 0 (bitrevPass P) (by omega)
      (by rw [bitrevPass_length, hP])
  rw [hst]
  simp only [Option.bind_eq_bind, Option.some_bind]
  rfl

/-- Witness for claim C9 at `K = ℚ`, `P = [1, 2, 3, 4]`, `n = 2`. -/
theorem claim_C9_witness :
    ([1, 2, 3, 4] : List ℚ).length = 2 ^ 2 ∧
    FFTcoreC (fun k => (k : ℚ)) (emptyRoots ℚ) [1, 2, 3, 4] 1 =
      some (FFTcore (fun k => (k : ℚ)) (emptyRoots ℚ) [1, 2, 3, 4] 1) :=
  ⟨by norm_num, claim_C9 (fun k => (k : ℚ)) (emptyRoots ℚ) [1, 2, 3, 4] 1 2 (by norm_num)⟩

/-! ## Length validation at the hardened call boundary (claim C8) -/

theorem isPow2_iff (n : ℕ) : isPow2 n = true ↔ ∃ k, n = 2 ^ k := by
  unfold isPow2
  rw [List.any_eq_true]
  constructor
  · rintro ⟨k, hk, hbeq⟩
    exact ⟨k, by simpa using hbeq⟩
  · rintro ⟨k, rfl⟩
    refine ⟨k, List.mem_range.mpr ?_, by simp⟩
    have := Nat.lt_two_pow k
    omega

/-- Claim C8: the hardened `transform` rejects every sequence whose length
is not a power of two (in particular lengths 0 and 3) with `InvalidLength`,
returning the error without running the engine, so the rejected input is
never mutated. -/
theorem claim_C8 (rv : RootsVec ℂ) (P : List ℂ) (inv : ℤ)
    (h : isPow2 P.length = false) :
    transform rv P inv = .error .InvalidLength := by
  unfold transform
  rw [h]
  rfl

/-- Witness for claim C8 at the length-3 input `[0, 0, 0]`. -/
theorem claim_C8_witness :
    isPow2 ([0, 0, 0] : List ℂ).length = false ∧
    transform (emptyRoots ℂ) [0, 0, 0] 1 = .error .InvalidLength :=
  ⟨rfl, claim_C8 (emptyRoots ℂ) [0, 0, 0] 1 rfl⟩
